import Mathlib

/-!
Shallow embedding of `src/ge_processor/ge_pre_processor.py` (class
`GEPreProcessor`), the GE detector pre-processing pipeline: intensity
normalization (`load_data`), connected-component labeling and blob
filtering (`find_blobs`), and per-blob local-maxima extraction
(`find_local_maxima`).

Conventions of the embedding:
* numpy floating-point values are idealized as exact rationals (`ℚ`);
* a numpy 3-d array is a nested list (normalizer) or a function from
  coordinates (labeler / maxima extractor), whichever fits the claims;
* Python exceptions become `Except`;
* external numpy/scipy primitives (`np.amax`, `ndimage.label`,
  `ndimage.find_objects`, `ndimage.maximum_filter`) are modelled by their
  documented semantics, specialized to how the source calls them.
-/

namespace GEPre

/-- A GE frame stack: axes (frame, row, column), modelled as nested lists.
This is `frame_list` in `load_data` (lines 106-111). -/
abbrev FrameStack : Type := List (List (List ℚ))

/-- Elementwise map over a frame stack (a numpy broadcast operation on the
whole 3-d array). -/
def map3 (f : ℚ → ℚ) (fs : FrameStack) : FrameStack :=
  fs.map fun frame => frame.map fun row => row.map f

/-- All voxels of a frame stack, flattened in raster order. -/
def flat3 (fs : FrameStack) : List ℚ :=
  (fs.map fun frame => frame.flatten).flatten

/-- `np.amax` over a flattened array: `none` on a zero-size array (where
numpy raises `ValueError: zero-size array to reduction operation`). -/
def amax : List ℚ → Option ℚ
  | [] => none
  | x :: xs =>
    match amax xs with
    | none => some x
    | some m => some (max x m)

/-- The failures `load_data` (lines 111-114) can actually raise: numpy's
`ValueError` for the zero-size `np.amax` reduction, and Python's
`ZeroDivisionError` for `float(2**14)/float(0.0)`.  The source defines no
`InvalidInputError` of its own. -/
inductive LoadError
  | zeroSizeReduction
  | zeroDivisionError
deriving DecidableEq

/-- Line 112: `frame_list[frame_list < cfg.fit_grains.threshold] = 0` —
every voxel strictly below the threshold is set to zero. -/
def thresholdVol (thr : ℚ) (fs : FrameStack) : FrameStack :=
  map3 (fun v => if v < thr then 0 else v) fs

/-- `GEPreProcessor.load_data`, numeric core of lines 111-120: threshold the
stack, compute `int_scale_factor = float(2**14)/float(np.amax(frame_list))`
(here `16384 = 2^14`), rescale, and return the rescaled stack together with
the scale factor. -/
def load_data (fs : FrameStack) (thr : ℚ) : Except LoadError (FrameStack × ℚ) :=
  match amax (flat3 (thresholdVol thr fs)) with
  | none => .error .zeroSizeReduction
  | some m =>
    if m = 0 then .error .zeroDivisionError
    else .ok (map3 (fun v => v * (16384 / m)) (thresholdVol thr fs), 16384 / m)

/-- A blob sub-volume (`roi = ge_data[slice_x, slice_y, slice_z]`, line 220)
as a function from local coordinates; only coordinates below the sub-volume
dimensions are meaningful. -/
abbrev Roi : Type := ℕ → ℕ → ℕ → ℚ

/-- Clamp an index into `[0, n-1]`: scipy's `mode='nearest'` boundary
handling (edge replication) for an axis of length `n`. -/
def clampIdx (n : ℕ) (i : ℤ) : ℕ := (max 0 (min i ((n:ℤ) - 1))).toNat

/-- The one-axis offsets of the footprint of
`ndimage.maximum_filter(..., size=s)`: `s` consecutive offsets with the
origin at the footprint centre `s / 2`, that is `-(s/2), ..., s-1-s/2`. -/
def offs (s : ℕ) : List ℤ :=
  (List.range s).map fun (j : ℕ) => ((j : ℤ) - ((s / 2 : ℕ) : ℤ))

/-- The (edge-clamped) voxels of the cubic window of size `s` centred on
`p` inside a sub-volume of dimensions `n₁ × n₂ × n₃`. -/
def windowPts (n₁ n₂ n₃ s : ℕ) (p : ℕ × ℕ × ℕ) : List (ℕ × ℕ × ℕ) :=
  (offs s).flatMap fun ox => (offs s).flatMap fun oy => (offs s).map fun oz =>
    (clampIdx n₁ ((p.1 : ℤ) + ox), clampIdx n₂ ((p.2.1 : ℤ) + oy),
     clampIdx n₃ ((p.2.2 : ℤ) + oz))

/-- Maximum of a list of rationals (junk value `0` on `[]`; every use is on
a nonempty list). -/
def qmax : List ℚ → ℚ
  | [] => 0
  | x :: xs => xs.foldl max x

/-- `ndimage.maximum_filter(roi, min_peak_separation, mode='nearest')` at
one voxel: the maximum of the sub-volume over the window. -/
def windowMax (r : Roi) (n₁ n₂ n₃ s : ℕ) (p : ℕ × ℕ × ℕ) : ℚ :=
  qmax ((windowPts n₁ n₂ n₃ s p).map fun q => r q.1 q.2.1 q.2.2)

/-- Line 223: `max_points = roi == ndimage.maximum_filter(roi, ...)`.
Line 225 computes `max_points[roi < int_scale_factor*threshold]` — a copy
of part of the mask — and immediately discards the result, so the intended
sub-threshold exclusion never alters `max_points`: the mask is the plain
equality test below. -/
def isMaxPoint (r : Roi) (n₁ n₂ n₃ s : ℕ) (p : ℕ × ℕ × ℕ) : Prop :=
  r p.1 p.2.1 p.2.2 = windowMax r n₁ n₂ n₃ s p

instance (r : Roi) (n₁ n₂ n₃ s : ℕ) (p : ℕ × ℕ × ℕ) :
    Decidable (isMaxPoint r n₁ n₂ n₃ s p) :=
  inferInstanceAs (Decidable (_ = _))

/-- Line 226: `roi[np.logical_not(max_points)] = 0` — the peak-suppressed
sub-volume. -/
def suppress (r : Roi) (n₁ n₂ n₃ s : ℕ) : Roi := fun i j k =>
  if isMaxPoint r n₁ n₂ n₃ s (i, j, k) then r i j k else 0

/-- All in-bounds voxels of an `n₁ × n₂ × n₃` sub-volume, raster order. -/
def allVoxels (n₁ n₂ n₃ : ℕ) : List (ℕ × ℕ × ℕ) :=
  (List.range n₁).flatMap fun i => (List.range n₂).flatMap fun j =>
    (List.range n₃).map fun k => (i, j, k)

/-- The Peak list of a sub-volume: the surviving (non-zero) voxels of the
peak-suppressed sub-volume together with their intensities. -/
def peaks (r : Roi) (n₁ n₂ n₃ s : ℕ) : List ((ℕ × ℕ × ℕ) × ℚ) :=
  ((allVoxels n₁ n₂ n₃).filter fun p =>
      decide (suppress r n₁ n₂ n₃ s p.1 p.2.1 p.2.2 ≠ 0)).map
    fun p => (p, suppress r n₁ n₂ n₃ s p.1 p.2.1 p.2.2)

/-- `GEBlob` (lines 50-57): slice bounds are half-open `[start, stop)`
ranges per axis, as produced by `ndimage.find_objects`. -/
structure GEBlob where
  slice_x : ℕ × ℕ
  slice_y : ℕ × ℕ
  slice_z : ℕ × ℕ
  blob_label : ℕ
  blob_size : ℕ
deriving DecidableEq

/-- The whole normalized GE volume (`ge_data`), as a total function on
global coordinates. -/
abbrev GVol : Type := ℕ → ℕ → ℕ → ℚ

/-- `roi = ge_data[slice_x, slice_y, slice_z]` (line 220): numpy basic
slicing — the sub-volume of the shared normalized volume selected by the
blob's bounding box, re-indexed from the box origin.  In numpy this is a
view aliasing `ge_data`; in the embedding reads go through the current
volume and writes are modelled by returning an updated volume. -/
def roiOf (v : GVol) (b : GEBlob) : Roi := fun i j k =>
  v (b.slice_x.1 + i) (b.slice_y.1 + j) (b.slice_z.1 + k)

/-- The extents of a blob's bounding box (line 181). -/
def blobDims (b : GEBlob) : ℕ × ℕ × ℕ :=
  (b.slice_x.2 - b.slice_x.1, b.slice_y.2 - b.slice_y.1,
   b.slice_z.2 - b.slice_z.1)

/-- Global coordinates lying inside a blob's bounding box. -/
def inSlices (b : GEBlob) (i j k : ℕ) : Prop :=
  (b.slice_x.1 ≤ i ∧ i < b.slice_x.2) ∧ (b.slice_y.1 ≤ j ∧ j < b.slice_y.2) ∧
  (b.slice_z.1 ≤ k ∧ k < b.slice_z.2)

instance (b : GEBlob) (i j k : ℕ) : Decidable (inSlices b i j k) :=
  inferInstanceAs (Decidable (_ ∧ _))

/-- One iteration of the loop of `find_local_maxima` (lines 217-226):
`roi[np.logical_not(max_points)] = 0` writes through the numpy view into
the shared `ge_data`, so the whole volume is updated in place inside the
blob's bounding box and untouched outside it. -/
def suppressBlob (s : ℕ) (v : GVol) (b : GEBlob) : GVol := fun i j k =>
  if inSlices b i j k then
    suppress (roiOf v b) (blobDims b).1 (blobDims b).2.1 (blobDims b).2.2 s
      (i - b.slice_x.1) (j - b.slice_y.1) (k - b.slice_z.1)
  else v i j k

/-- `GEPreProcessor.find_local_maxima` (lines 202-230), as its effect on
the shared normalized volume `ge_data`: the per-blob suppressions are
applied sequentially, each reading the volume as left by the previous
ones. -/
def find_local_maxima (s : ℕ) (v : GVol) (blobs : List GEBlob) : GVol :=
  blobs.foldl (suppressBlob s) v

/-- Concrete volume for the view-aliasing facts of C10: intensities 9, 4, 7
at `(0,0,0)`, `(0,0,1)`, `(0,0,2)`, zero elsewhere. -/
def c10Vol : GVol := fun i j k =>
  if i = 0 ∧ j = 0 ∧ k = 0 then 9
  else if i = 0 ∧ j = 0 ∧ k = 1 then 4
  else if i = 0 ∧ j = 0 ∧ k = 2 then 7
  else 0

/-- First blob of the C10 example: bounding box `[0,1)×[0,1)×[0,2)`. -/
def c10B1 : GEBlob := ⟨(0, 1), (0, 1), (0, 2), 1, 2⟩

/-- Second blob of the C10 example: bounding box `[0,1)×[0,1)×[1,3)`,
overlapping the first blob at global voxel `(0,0,1)`. -/
def c10B2 : GEBlob := ⟨(0, 1), (0, 1), (1, 3), 2, 2⟩

/-- Sub-volume for the C3 counterexample: a `1×1×2` plateau of two voxels
of equal intensity `5`. -/
def c3Roi : Roi := fun _ _ k => if k = 0 then 5 else if k = 1 then 5 else 0

/-- Sub-volume for the C1 failing input: a `1×1×2` sub-volume with
intensities `9` and `4`, to be filtered against
`int_scale_factor * threshold = 1 * 10`. -/
def c1Roi : Roi := fun _ _ k => if k = 0 then 9 else if k = 1 then 4 else 0

/-- Distance between two naturals. -/
def natDist (a b : ℕ) : ℕ := max a b - min a b

/-- A voxel coordinate of a `d₁ × d₂ × d₃` volume. -/
abbrev Vox (d₁ d₂ d₃ : ℕ) : Type := Fin d₁ × Fin d₂ × Fin d₃

/-- The smoothed volume (`ge_smooth_data`), indexed by voxel coordinates. -/
abbrev SVol (d₁ d₂ d₃ : ℕ) : Type := Vox d₁ d₂ d₃ → ℚ

variable {d₁ d₂ d₃ : ℕ}

/-- Line 159: `ge_mask = ge_data_smooth > cfg.fit_grains.threshold` — the
binary foreground mask, true where the smoothed volume strictly exceeds the
threshold. -/
def maskOf (sm : SVol d₁ d₂ d₃) (thr : ℚ) : Vox d₁ d₂ d₃ → Bool :=
  fun p => decide (thr < sm p)

/-- Face adjacency (6-connectivity in three dimensions): exactly one
coordinate differs, and it differs by exactly one.  This is the default
structuring element of `ndimage.label`,
`generate_binary_structure(3, 1)`. -/
def faceAdj (p q : Vox d₁ d₂ d₃) : Prop :=
  (natDist p.1.val q.1.val = 1 ∧ p.2.1 = q.2.1 ∧ p.2.2 = q.2.2) ∨
  (p.1 = q.1 ∧ natDist p.2.1.val q.2.1.val = 1 ∧ p.2.2 = q.2.2) ∨
  (p.1 = q.1 ∧ p.2.1 = q.2.1 ∧ natDist p.2.2.val q.2.2.val = 1)

instance (p q : Vox d₁ d₂ d₃) : Decidable (faceAdj p q) :=
  inferInstanceAs (Decidable (_ ∨ _))

/-- The adjacency graph used by `ndimage.label(ge_mask)` (line 161): edges
join face-adjacent foreground voxels. -/
def maskGraph (M : Vox d₁ d₂ d₃ → Bool) : SimpleGraph (Vox d₁ d₂ d₃) where
  Adj p q := M p = true ∧ M q = true ∧ faceAdj p q
  symm := by
    intro p q h
    refine ⟨h.2.1, h.1, ?_⟩
    have hadj := h.2.2
    unfold faceAdj natDist at hadj ⊢
    rcases hadj with ⟨h1, h2, h3⟩ | ⟨h1, h2, h3⟩ | ⟨h1, h2, h3⟩
    · exact Or.inl ⟨by omega, h2.symm, h3.symm⟩
    · exact Or.inr (Or.inl ⟨h1.symm, by omega, h3.symm⟩)
    · exact Or.inr (Or.inr ⟨h1.symm, h2.symm, by omega⟩)
  loopless := by
    intro p h
    have hadj := h.2.2
    unfold faceAdj natDist at hadj
    rcases hadj with ⟨h1, -, -⟩ | ⟨-, h1, -⟩ | ⟨-, -, h1⟩ <;> omega

instance (M : Vox d₁ d₂ d₃ → Bool) : DecidableRel (maskGraph M).Adj :=
  fun _ _ => inferInstanceAs (Decidable (_ ∧ _))

/-- Raster-scan index of a voxel (axis order frame, row, column). -/
def rasterIdx (p : Vox d₁ d₂ d₃) : ℕ :=
  p.2.2.val + d₃ * (p.2.1.val + d₂ * p.1.val)

/-- The foreground voxels of a mask. -/
def fgFinset (M : Vox d₁ d₂ d₃ → Bool) : Finset (Vox d₁ d₂ d₃) :=
  Finset.univ.filter fun p => M p = true

/-- The voxels reachable from `p` in the foreground adjacency graph. -/
def reachSet (M : Vox d₁ d₂ d₃ → Bool) (p : Vox d₁ d₂ d₃) :
    Finset (Vox d₁ d₂ d₃) :=
  Finset.univ.filter fun q => (maskGraph M).Reachable p q

/-- The representative of `p`'s connected component: the smallest raster
index among the voxels reachable from `p` (the component's raster-scan
first-encounter position, which orders `ndimage.label`'s label
assignment). -/
def rep (M : Vox d₁ d₂ d₃ → Bool) (p : Vox d₁ d₂ d₃) : ℕ :=
  ((reachSet M p).image rasterIdx).min'
    (Finset.Nonempty.image
      ⟨p, by
        simp only [reachSet, Finset.mem_filter]
        exact ⟨Finset.mem_univ p, SimpleGraph.Reachable.refl p⟩⟩
      rasterIdx)

/-- The component representatives of the foreground, in ascending raster
order (every raster index is `< d₁ * d₂ * d₃`, so filtering the full range
lists exactly the distinct representatives, ascending — the order in which
`ndimage.label` first encounters the components in its raster scan). -/
def repsList (M : Vox d₁ d₂ d₃ → Bool) : List ℕ :=
  (List.range (d₁ * d₂ * d₃)).filter fun r =>
    decide (r ∈ (fgFinset M).image (rep M))

/-- The LabelVolume produced by `label_ge, number_of_labels =
ndimage.label(ge_mask)` (line 161), modelled from scipy's documented
semantics: background voxels get label `0`, and each connected component
(6-connectivity) gets one label from `1, ..., number_of_labels`, numbered
in raster-scan first-encounter order. -/
def labelOf (M : Vox d₁ d₂ d₃ → Bool) (p : Vox d₁ d₂ d₃) : ℕ :=
  if M p = true then (repsList M).indexOf (rep M p) + 1 else 0

/-- `number_of_labels` returned by `ndimage.label` (line 161). -/
def numberOfLabels (M : Vox d₁ d₂ d₃ → Bool) : ℕ := (repsList M).length

/-- The voxels carrying a given label value. -/
def labelVoxels (M : Vox d₁ d₂ d₃ → Bool) (l : ℕ) : Finset (Vox d₁ d₂ d₃) :=
  Finset.univ.filter fun p => labelOf M p = l

/-- `blob_labels = np.unique(label_ge)` (line 168): the distinct label
values in ascending order.  Every label value is `≤ number_of_labels`, so
filtering `0, ..., number_of_labels` by attainment lists exactly
`np.unique`'s output. -/
def blobLabels (M : Vox d₁ d₂ d₃ → Bool) : List ℕ :=
  (List.range (numberOfLabels M + 1)).filter fun l =>
    decide (l ∈ Finset.univ.image (labelOf M))

/-- `ndimage.sum(ge_mask, label_ge, l)` (line 167): for each label value,
the number of *masked* voxels carrying it (the mask contributes 1 per
voxel). -/
def blobSize (M : Vox d₁ d₂ d₃ → Bool) (l : ℕ) : ℕ :=
  ((labelVoxels M l).filter fun p => M p = true).card

/-- `ndimage.find_objects(label_ge == label_num)[0]` (line 180): the tight
half-open slice bounds, per axis, of the voxels carrying the label.
`none` when no voxel carries it (there the source's `[0]` would raise an
`IndexError`; unreachable, since labels are drawn from `np.unique`). -/
def findObject (M : Vox d₁ d₂ d₃ → Bool) (l : ℕ) :
    Option ((ℕ × ℕ) × (ℕ × ℕ) × (ℕ × ℕ)) :=
  if h : (labelVoxels M l).Nonempty then
    some ((((labelVoxels M l).image fun p => p.1.val).min' (h.image _),
           (((labelVoxels M l).image fun p => p.1.val).max' (h.image _)) + 1),
          (((labelVoxels M l).image fun p => p.2.1.val).min' (h.image _),
           (((labelVoxels M l).image fun p => p.2.1.val).max' (h.image _)) + 1),
          (((labelVoxels M l).image fun p => p.2.2.val).min' (h.image _),
           (((labelVoxels M l).image fun p => p.2.2.val).max' (h.image _)) + 1))
  else none

/-- The body of the blob loop (lines 172-187) for one `(label, size)` pair:
skip label 0, skip `blob_size < min_size`, compute the bounding box, skip
when the minimal extent is below the cube root of `min_size` — the float
test `min(bbox) < min_size ** (1.0/3.0)` on an integer extent `e` holds
exactly when `e^3 < min_size`, which is how it is embedded — and otherwise
build the `GEBlob`. -/
def blobOfPair (M : Vox d₁ d₂ d₃ → Bool) (min_size : ℕ) (ls : ℕ × ℕ) :
    Option GEBlob :=
  if ls.1 = 0 then none
  else if ls.2 < min_size then none
  else
    match findObject M ls.1 with
    | none => none
    | some (sx, sy, sz) =>
      if min (sx.2 - sx.1) (min (sy.2 - sy.1) (sz.2 - sz.1)) ^ 3 < min_size
      then none
      else some ⟨sx, sy, sz, ls.1, ls.2⟩

/-- The blob list built by the loop of lines 171-187: `np.unique`'s label
values zipped against `ndimage.sum`'s per-label sizes (the sizes list is
indexed by `range(number_of_labels + 1)`, so the two lists only align when
label 0 is attained), filtered by the size and extent tests. -/
def findBlobsMask (M : Vox d₁ d₂ d₃ → Bool) (min_size : ℕ) : List GEBlob :=
  (List.zip (blobLabels M)
      ((List.range (numberOfLabels M + 1)).map fun l => blobSize M l)).filterMap
    (blobOfPair M min_size)

/-- `GEPreProcessor.find_blobs` (lines 148-200), numeric core: mask the
smoothed volume, label its connected components, and filter the labelled
regions by size and extent. -/
def find_blobs (sm : SVol d₁ d₂ d₃) (thr : ℚ) (min_size : ℕ) : List GEBlob :=
  findBlobsMask (maskOf sm thr) min_size

/-- A face-adjacent path of foreground voxels connecting `p` and `q`
(reflexive-transitive closure of the single foreground step). -/
def fgConnected (M : Vox d₁ d₂ d₃ → Bool) (p q : Vox d₁ d₂ d₃) : Prop :=
  Relation.ReflTransGen (fun a b => M a = true ∧ M b = true ∧ faceAdj a b) p q

/-- The invariants C5 asserts of every produced Blob: size at least
`min_blob_size`; minimal bounding-box extent at least its cube root
(stated exactly on integers: the cube of the minimal extent is at least
`min_blob_size`); a nonzero, attained label; `blob_size` equal to the
number of voxels carrying the label; and a tight bounding box — every
voxel of the label lies inside it and each of its six faces touches a
voxel of the label, so no smaller axis-aligned box contains them all. -/
def blobInvariants (M : Vox d₁ d₂ d₃ → Bool) (min_size : ℕ) (b : GEBlob) :
    Prop :=
  min_size ≤ b.blob_size ∧
  min_size ≤ (min (b.slice_x.2 - b.slice_x.1)
    (min (b.slice_y.2 - b.slice_y.1) (b.slice_z.2 - b.slice_z.1))) ^ 3 ∧
  b.blob_label ≠ 0 ∧
  (∃ p, labelOf M p = b.blob_label) ∧
  b.blob_size = (labelVoxels M b.blob_label).card ∧
  (∀ p ∈ labelVoxels M b.blob_label,
    b.slice_x.1 ≤ p.1.val ∧ p.1.val < b.slice_x.2 ∧
    b.slice_y.1 ≤ p.2.1.val ∧ p.2.1.val < b.slice_y.2 ∧
    b.slice_z.1 ≤ p.2.2.val ∧ p.2.2.val < b.slice_z.2) ∧
  (∃ p ∈ labelVoxels M b.blob_label, p.1.val = b.slice_x.1) ∧
  (∃ p ∈ labelVoxels M b.blob_label, p.1.val + 1 = b.slice_x.2) ∧
  (∃ p ∈ labelVoxels M b.blob_label, p.2.1.val = b.slice_y.1) ∧
  (∃ p ∈ labelVoxels M b.blob_label, p.2.1.val + 1 = b.slice_y.2) ∧
  (∃ p ∈ labelVoxels M b.blob_label, p.2.2.val = b.slice_z.1) ∧
  (∃ p ∈ labelVoxels M b.blob_label, p.2.2.val + 1 = b.slice_z.2)

/-- Smoothed volume for the C4 witness: a `1×1×2` volume with one voxel
above and one below the threshold `1`. -/
def c4Sm : SVol 1 1 2 := fun p => if p.2.2.val = 0 then 5 else 0

/-- Smoothed volume for the C5 counterexample: a `1×1×1` volume whose only
voxel exceeds the threshold, so the mask has no background voxel. -/
def c5Sm : SVol 1 1 1 := fun _ => 5

lemma flatten_map_map (f : ℚ → ℚ) (fr : List (List ℚ)) :
    (fr.map fun row => row.map f).flatten = fr.flatten.map f := by
  induction fr with
  | nil => rfl
  | cons row rest ih =>
    rw [List.map_cons, List.flatten_cons, List.flatten_cons, List.map_append, ih]

lemma flat3_map3 (f : ℚ → ℚ) (fs : FrameStack) :
    flat3 (map3 f fs) = (flat3 fs).map f := by
  induction fs with
  | nil => rfl
  | cons fr rest ih =>
    simp only [flat3, map3, List.map_cons, List.flatten_cons] at ih ⊢
    rw [ih, flatten_map_map, List.map_append]

lemma map3_map3 (f g : ℚ → ℚ) (fs : FrameStack) :
    map3 g (map3 f fs) = map3 (fun v => g (f v)) fs := by
  simp [map3, List.map_map, Function.comp_def]

lemma mem_flat3 {v : ℚ} {fs : FrameStack} :
    v ∈ flat3 fs ↔ ∃ fr ∈ fs, ∃ row ∈ fr, v ∈ row := by
  simp only [flat3, List.mem_flatten, List.mem_map]
  constructor
  · rintro ⟨l, ⟨fr, hfr, rfl⟩, hv⟩
    exact ⟨fr, hfr, List.mem_flatten.mp hv⟩
  · rintro ⟨fr, hfr, row, hrow, hv⟩
    exact ⟨fr.flatten, ⟨fr, hfr, rfl⟩, List.mem_flatten.mpr ⟨row, hrow, hv⟩⟩

lemma map3_congr_id {f : ℚ → ℚ} {fs : FrameStack}
    (h : ∀ v ∈ flat3 fs, f v = v) : map3 f fs = fs := by
  unfold map3
  have : ∀ fr ∈ fs, (fr.map fun row => row.map f) = fr := by
    intro fr hfr
    have : ∀ row ∈ fr, row.map f = row := by
      intro row hrow
      have : ∀ v ∈ row, f v = v := fun v hv =>
        h v (mem_flat3.mpr ⟨fr, hfr, row, hrow, hv⟩)
      calc row.map f = row.map id := List.map_congr_left this
        _ = row := List.map_id row
    calc fr.map (fun row => row.map f) = fr.map id := List.map_congr_left this
      _ = fr := List.map_id fr
  calc fs.map (fun fr => fr.map fun row => row.map f) = fs.map id :=
        List.map_congr_left this
    _ = fs := List.map_id fs

lemma load_data_of_amax_none {fs : FrameStack} {thr : ℚ}
    (h : amax (flat3 (thresholdVol thr fs)) = none) :
    load_data fs thr = .error .zeroSizeReduction := by
  unfold load_data
  rw [h]

lemma load_data_of_amax_some {fs : FrameStack} {thr m : ℚ}
    (h : amax (flat3 (thresholdVol thr fs)) = some m) :
    load_data fs thr =
      if m = 0 then .error .zeroDivisionError
      else .ok (map3 (fun v => v * (16384 / m)) (thresholdVol thr fs),
                16384 / m) := by
  unfold load_data
  rw [h]

lemma amax_eq_none_iff {l : List ℚ} : amax l = none ↔ l = [] := by
  cases l with
  | nil => simp [amax]
  | cons x xs =>
    simp only [amax]
    cases h : amax xs <;> simp

lemma amax_mem {l : List ℚ} {m : ℚ} (h : amax l = some m) : m ∈ l := by
  induction l generalizing m with
  | nil => simp [amax] at h
  | cons x xs ih =>
    simp only [amax] at h
    cases hx : amax xs with
    | none =>
      rw [hx] at h
      simp at h
      simp [h]
    | some m' =>
      rw [hx] at h
      simp at h
      rcases max_choice x m' with hc | hc <;> rw [← h, hc]
      · exact List.mem_cons_self x xs
      · exact List.mem_cons_of_mem x (ih hx)

lemma le_amax {l : List ℚ} {m v : ℚ} (h : amax l = some m) (hv : v ∈ l) :
    v ≤ m := by
  induction l generalizing m with
  | nil => simp at hv
  | cons x xs ih =>
    simp only [amax] at h
    cases hx : amax xs with
    | none =>
      rw [hx] at h
      simp at h
      rcases List.mem_cons.mp hv with rfl | hv'
      · exact le_of_eq h
      · exact absurd (amax_eq_none_iff.mp hx ▸ hv') (List.not_mem_nil v)
    | some m' =>
      rw [hx] at h
      simp at h
      rcases List.mem_cons.mp hv with rfl | hv'
      · exact h ▸ le_max_left v m'
      · exact h ▸ le_trans (ih hx hv') (le_max_right x m')

lemma amax_map_mul_pos {c : ℚ} (hc : 0 < c) (l : List ℚ) :
    amax (l.map (fun v => v * c)) = (amax l).map (fun v => v * c) := by
  induction l with
  | nil => rfl
  | cons x xs ih =>
    simp only [List.map_cons, amax, ih]
    cases hx : amax xs with
    | none => simp
    | some m => simp [max_mul_of_nonneg _ _ (le_of_lt hc)]

lemma amax_of_all_zero {l : List ℚ} (hne : l ≠ [])
    (h : ∀ v ∈ l, v = 0) : amax l = some 0 := by
  induction l with
  | nil => exact absurd rfl hne
  | cons x xs ih =>
    simp only [amax]
    cases hx : amax xs with
    | none =>
      simp [h x (List.mem_cons_self x xs)]
    | some m =>
      have hm : m = 0 := by
        have := amax_mem hx
        exact h m (List.mem_cons_of_mem x this)
      have hx0 : x = 0 := h x (List.mem_cons_self x xs)
      simp [hx0, hm]

/-- C2 counterexample: with threshold `0` and the one-frame stack holding the
single voxel `0`, a voxel meets the threshold (`0 ≥ 0`) and the stack has one
frame, so the claim demands a normal return; `load_data` nevertheless fails
with a `ZeroDivisionError` (and in no case does the source raise an
`InvalidInputError`, which it never defines). -/
theorem load_data_c2_counterexample :
    load_data [[[(0:ℚ)]]] 0 = .error .zeroDivisionError ∧
    (0:ℚ) ∈ flat3 [[[(0:ℚ)]]] ∧ ((0:ℚ) ≤ 0) ∧
    ([[[(0:ℚ)]]] : FrameStack) ≠ [] := by
  refine ⟨rfl, ?_, le_refl 0, by simp⟩
  simp [flat3]

/-- C2 amended: `load_data` fails with numpy's `ValueError` exactly on a
zero-size stack, and with Python's `ZeroDivisionError` exactly when the
maximum of the thresholded stack is zero; it returns normally in every other
case.  For a positive threshold, the two failure conditions together are
equivalent to "no voxel meets the threshold or the stack is empty".  No
`InvalidInputError` is involved: the source never defines one. -/
theorem load_data_error_characterization (fs : FrameStack) (thr : ℚ) :
    (load_data fs thr = .error .zeroSizeReduction ↔ flat3 fs = []) ∧
    (load_data fs thr = .error .zeroDivisionError ↔
      amax (flat3 (thresholdVol thr fs)) = some 0) ∧
    ((∃ out, load_data fs thr = .ok out) ↔
      ¬ (flat3 fs = [] ∨ amax (flat3 (thresholdVol thr fs)) = some 0)) ∧
    (0 < thr →
      ((flat3 fs = [] ∨ amax (flat3 (thresholdVol thr fs)) = some 0) ↔
        ∀ v ∈ flat3 fs, v < thr)) := by
  have hft : flat3 (thresholdVol thr fs) =
      (flat3 fs).map (fun v => if v < thr then 0 else v) := flat3_map3 _ fs
  have hempty : flat3 (thresholdVol thr fs) = [] ↔ flat3 fs = [] := by
    rw [hft]; exact List.map_eq_nil_iff
  have main : (load_data fs thr = .error .zeroSizeReduction ↔ flat3 fs = []) ∧
      (load_data fs thr = .error .zeroDivisionError ↔
        amax (flat3 (thresholdVol thr fs)) = some 0) ∧
      ((∃ out, load_data fs thr = .ok out) ↔
        ¬ (flat3 fs = [] ∨ amax (flat3 (thresholdVol thr fs)) = some 0)) := by
    cases h : amax (flat3 (thresholdVol thr fs)) with
    | none =>
      have hld : load_data fs thr = .error .zeroSizeReduction :=
        load_data_of_amax_none h
      have hfse : flat3 fs = [] := hempty.mp (amax_eq_none_iff.mp h)
      refine ⟨by simp [hld, hfse], by simp [hld], by simp [hld, hfse]⟩
    | some m =>
      have hfsne : flat3 fs ≠ [] := by
        intro he
        exact absurd (amax_eq_none_iff.mpr (hempty.mpr he)) (by simp [h])
      by_cases hm : m = 0
      · have hld : load_data fs thr = .error .zeroDivisionError := by
          rw [load_data_of_amax_some h, if_pos hm]
        subst hm
        refine ⟨by simp [hld, hfsne], by simp [hld, h], by simp [hld, h]⟩
      · have hld : load_data fs thr =
            .ok (map3 (fun v => v * (16384 / m)) (thresholdVol thr fs),
                 16384 / m) := by
          rw [load_data_of_amax_some h, if_neg hm]
        refine ⟨by simp [hld, hfsne], by simp [hld, h, hm], ?_⟩
        simp only [hld, h]
        constructor
        · rintro - hor
          rcases hor with he | hs0
          · exact hfsne he
          · exact hm (by simpa using hs0)
        · intro _
          exact ⟨_, rfl⟩
  refine ⟨main.1, main.2.1, main.2.2, ?_⟩
  intro hthr
  constructor
  · rintro (he | hmax) v hv
    · rw [he] at hv; simp at hv
    · have hvt : (if v < thr then 0 else v) ∈ flat3 (thresholdVol thr fs) := by
        rw [hft]; exact List.mem_map_of_mem _ hv
      have := le_amax hmax hvt
      by_cases hlt : v < thr
      · exact hlt
      · simp [hlt] at this
        exact lt_of_le_of_lt this hthr
  · intro hall
    by_cases he : flat3 fs = []
    · exact Or.inl he
    · refine Or.inr (amax_of_all_zero (fun hc => he (hempty.mp hc)) ?_)
      intro v hv
      rw [hft] at hv
      rcases List.mem_map.mp hv with ⟨w, hw, rfl⟩
      simp [hall w hw]

/-- Witness for the amended C2 at a concrete input: the stack `[[[2]]]` with
threshold `1` has a voxel meeting the threshold, and `load_data` returns
normally on it. -/
theorem load_data_error_characterization_witness :
    ∃ out, load_data [[[(2:ℚ)]]] 1 = .ok out :=
  (load_data_error_characterization [[[(2:ℚ)]]] 1).2.2.1.mpr (by decide)

/-- C7 counterexample: the stack `[[[0, 0]]]` with threshold `-1` contains a
voxel `0 ≥ -1`, satisfying the claim's hypothesis, yet `load_data` raises a
`ZeroDivisionError` instead of returning a rescaled volume with maximum
`2^14`. -/
theorem load_data_c7_counterexample :
    ((-1:ℚ) ≤ 0 ∧ (0:ℚ) ∈ flat3 [[[(0:ℚ), 0]]]) ∧
    load_data [[[(0:ℚ), 0]]] (-1) = .error .zeroDivisionError := by
  refine ⟨⟨by norm_num, ?_⟩, rfl⟩
  simp [flat3]

/-- C7 amended: if some voxel is both `≥ threshold` and positive (so the
thresholded maximum cannot vanish), then `load_data` zeroes every voxel
strictly below the threshold, multiplies every voxel by
`scale_factor = 2^14 / max(thresholded stack)`, returns the rescaled stack
together with the scale factor, and the maximum of the returned stack is
exactly `2^14 = 16384`. -/
theorem load_data_spec (fs : FrameStack) (thr : ℚ)
    (h : ∃ v ∈ flat3 fs, thr ≤ v ∧ 0 < v) :
    ∃ m : ℚ, 0 < m ∧ amax (flat3 (thresholdVol thr fs)) = some m ∧
      load_data fs thr =
        .ok (map3 (fun v => (if v < thr then 0 else v) * (16384 / m)) fs,
             16384 / m) ∧
      amax (flat3 (map3 (fun v => (if v < thr then 0 else v) * (16384 / m)) fs))
        = some 16384 := by
  obtain ⟨v, hv, hthr, hpos⟩ := h
  have hft : flat3 (thresholdVol thr fs) =
      (flat3 fs).map (fun v => if v < thr then 0 else v) := flat3_map3 _ fs
  have hvt : (if v < thr then 0 else v) ∈ flat3 (thresholdVol thr fs) := by
    rw [hft]; exact List.mem_map_of_mem _ hv
  have hvt' : v ∈ flat3 (thresholdVol thr fs) := by
    rwa [if_neg (not_lt.mpr hthr)] at hvt
  cases hm : amax (flat3 (thresholdVol thr fs)) with
  | none =>
    rw [amax_eq_none_iff.mp hm] at hvt'
    simp at hvt'
  | some m =>
    have hmpos : 0 < m := lt_of_lt_of_le hpos (le_amax hm hvt')
    have hcomp : map3 (fun v => (if v < thr then 0 else v) * (16384 / m)) fs =
        map3 (fun v => v * (16384 / m)) (thresholdVol thr fs) := by
      rw [thresholdVol, map3_map3]
    refine ⟨m, hmpos, rfl, ?_, ?_⟩
    · rw [load_data_of_amax_some hm, if_neg (ne_of_gt hmpos), hcomp]
    · have hc : (0:ℚ) < 16384 / m := div_pos (by norm_num) hmpos
      rw [hcomp, flat3_map3, amax_map_mul_pos hc, hm]
      simp only [Option.map_some']
      congr 1
      field_simp

/-- Witness for the amended C7: the stack `[[[2]]]` with threshold `1`. -/
theorem load_data_spec_witness :
    ∃ m : ℚ, 0 < m ∧ amax (flat3 (thresholdVol 1 [[[(2:ℚ)]]])) = some m ∧
      load_data [[[(2:ℚ)]]] 1 =
        .ok (map3 (fun v => (if v < 1 then 0 else v) * (16384 / m)) [[[(2:ℚ)]]],
             16384 / m) ∧
      amax (flat3 (map3 (fun v => (if v < 1 then 0 else v) * (16384 / m))
        [[[(2:ℚ)]]])) = some 16384 :=
  load_data_spec [[[(2:ℚ)]]] 1 (by decide)

/-- C9: running the normalizer with threshold `0` on an already-normalized
stack (nonnegative intensities, maximum exactly `2^14 = 16384`) returns the
stack unchanged and a scale factor of `1`.  Nonnegativity formalizes
"already normalized": the normalizer's outputs on detector data are
nonnegative. -/
theorem load_data_renormalize (fs : FrameStack)
    (hmax : amax (flat3 fs) = some 16384) (hnn : ∀ v ∈ flat3 fs, 0 ≤ v) :
    load_data fs 0 = .ok (fs, 1) := by
  have ht : thresholdVol 0 fs = fs := by
    unfold thresholdVol
    exact map3_congr_id (fun v hv => if_neg (not_lt.mpr (hnn v hv)))
  have h' : amax (flat3 (thresholdVol 0 fs)) = some 16384 := by
    rw [ht]; exact hmax
  have h16 : (16384:ℚ) ≠ 0 := by norm_num
  have hdiv : (16384:ℚ) / 16384 = 1 := by norm_num
  rw [load_data_of_amax_some h', if_neg h16, hdiv, ht]
  have : map3 (fun v => v * 1) fs = fs :=
    map3_congr_id (fun v _ => mul_one v)
  rw [this]

/-- Witness for C9: the one-voxel stack `[[[16384]]]`. -/
theorem load_data_renormalize_witness :
    load_data [[[(16384:ℚ)]]] 0 = .ok ([[[(16384:ℚ)]]], 1) :=
  load_data_renormalize [[[(16384:ℚ)]]] rfl (by decide)

lemma le_foldl_max (x : ℚ) (xs : List ℚ) : x ≤ xs.foldl max x := by
  induction xs generalizing x with
  | nil => exact le_refl x
  | cons y ys ih => exact le_trans (le_max_left x y) (ih (max x y))

lemma mem_le_foldl_max {v : ℚ} (x : ℚ) (xs : List ℚ) (hv : v ∈ xs) :
    v ≤ xs.foldl max x := by
  induction xs generalizing x with
  | nil => simp at hv
  | cons y ys ih =>
    rcases List.mem_cons.mp hv with rfl | hv'
    · exact le_trans (le_max_right x v) (le_foldl_max (max x v) ys)
    · exact ih (max x y) hv'

lemma foldl_max_mem (x : ℚ) (xs : List ℚ) : xs.foldl max x ∈ x :: xs := by
  induction xs generalizing x with
  | nil => simp [List.foldl_nil]
  | cons y ys ih =>
    simp only [List.foldl_cons]
    rcases List.mem_cons.mp (ih (max x y)) with h | h
    · rw [h]
      rcases max_choice x y with hc | hc <;> rw [hc]
      · exact List.mem_cons_self _ _
      · exact List.mem_cons_of_mem _ (List.mem_cons_self _ _)
    · exact List.mem_cons_of_mem _ (List.mem_cons_of_mem _ h)

lemma le_qmax {l : List ℚ} {v : ℚ} (hv : v ∈ l) : v ≤ qmax l := by
  cases l with
  | nil => simp at hv
  | cons x xs =>
    rcases List.mem_cons.mp hv with rfl | hv'
    · exact le_foldl_max v xs
    · exact mem_le_foldl_max x xs hv'

lemma qmax_mem {l : List ℚ} (h : l ≠ []) : qmax l ∈ l := by
  cases l with
  | nil => exact absurd rfl h
  | cons x xs => exact foldl_max_mem x xs

lemma qmax_le_of_subset {l₁ l₂ : List ℚ} (h : l₁ ⊆ l₂) (hne : l₁ ≠ []) :
    qmax l₁ ≤ qmax l₂ :=
  le_qmax (h (qmax_mem hne))

lemma windowMax_ge (r : Roi) {n₁ n₂ n₃ s : ℕ} {p q : ℕ × ℕ × ℕ}
    (hq : q ∈ windowPts n₁ n₂ n₃ s p) :
    r q.1 q.2.1 q.2.2 ≤ windowMax r n₁ n₂ n₃ s p :=
  le_qmax (List.mem_map_of_mem _ hq)

lemma mem_offs {s : ℕ} {o : ℤ} :
    o ∈ offs s ↔ -((s / 2 : ℕ) : ℤ) ≤ o ∧ o ≤ (s : ℤ) - 1 - ((s / 2 : ℕ) : ℤ) := by
  unfold offs
  rw [List.mem_map]
  constructor
  · rintro ⟨j, hj, he⟩
    rw [List.mem_range] at hj
    have : (j : ℤ) - ((s / 2 : ℕ) : ℤ) = o := he
    omega
  · rintro ⟨h1, h2⟩
    refine ⟨(o + ((s / 2 : ℕ) : ℤ)).toNat, List.mem_range.mpr ?_, ?_⟩
    · omega
    · show (((o + ((s / 2 : ℕ) : ℤ)).toNat : ℕ) : ℤ) - ((s / 2 : ℕ) : ℤ) = o
      omega

lemma offs_zero_mem {s : ℕ} (hs : 1 ≤ s) : (0 : ℤ) ∈ offs s := by
  rw [mem_offs]
  omega

lemma offs_subset {s s' : ℕ} (h : s ≤ s') : offs s ⊆ offs s' := by
  intro o ho
  rw [mem_offs] at ho ⊢
  omega

lemma windowPts_subset {n₁ n₂ n₃ s s' : ℕ} (h : s ≤ s') (p : ℕ × ℕ × ℕ) :
    windowPts n₁ n₂ n₃ s p ⊆ windowPts n₁ n₂ n₃ s' p := by
  intro q hq
  simp only [windowPts, List.mem_flatMap, List.mem_map] at hq ⊢
  obtain ⟨ox, hox, oy, hoy, oz, hoz, rfl⟩ := hq
  exact ⟨ox, offs_subset h hox, oy, offs_subset h hoy, oz, offs_subset h hoz, rfl⟩

lemma clampIdx_self {n i : ℕ} (h : i < n) : clampIdx n ((i : ℤ) + 0) = i := by
  unfold clampIdx
  omega

lemma self_mem_windowPts {n₁ n₂ n₃ s : ℕ} {p : ℕ × ℕ × ℕ} (hs : 1 ≤ s)
    (h1 : p.1 < n₁) (h2 : p.2.1 < n₂) (h3 : p.2.2 < n₃) :
    p ∈ windowPts n₁ n₂ n₃ s p := by
  simp only [windowPts, List.mem_flatMap, List.mem_map]
  refine ⟨0, offs_zero_mem hs, 0, offs_zero_mem hs, 0, offs_zero_mem hs, ?_⟩
  rw [clampIdx_self h1, clampIdx_self h2, clampIdx_self h3]

lemma windowPts_ne_nil {n₁ n₂ n₃ s : ℕ} (hs : 1 ≤ s) (p : ℕ × ℕ × ℕ) :
    windowPts n₁ n₂ n₃ s p ≠ [] := by
  apply List.ne_nil_of_mem
    (a := (clampIdx n₁ ((p.1 : ℤ) + 0), clampIdx n₂ ((p.2.1 : ℤ) + 0),
           clampIdx n₃ ((p.2.2 : ℤ) + 0)))
  simp only [windowPts, List.mem_flatMap, List.mem_map]
  exact ⟨0, offs_zero_mem hs, 0, offs_zero_mem hs, 0, offs_zero_mem hs, rfl⟩

lemma windowMax_mono (r : Roi) {n₁ n₂ n₃ s s' : ℕ} (hs : 1 ≤ s) (h : s ≤ s')
    (p : ℕ × ℕ × ℕ) :
    windowMax r n₁ n₂ n₃ s p ≤ windowMax r n₁ n₂ n₃ s' p := by
  apply qmax_le_of_subset
  · exact List.map_subset _ (windowPts_subset h p)
  · simp only [ne_eq, List.map_eq_nil_iff]
    exact windowPts_ne_nil hs p

lemma isMaxPoint_mono (r : Roi) {n₁ n₂ n₃ s s' : ℕ} (hs : 1 ≤ s) (h : s ≤ s')
    {p : ℕ × ℕ × ℕ} (h1 : p.1 < n₁) (h2 : p.2.1 < n₂) (h3 : p.2.2 < n₃)
    (hmax : isMaxPoint r n₁ n₂ n₃ s' p) : isMaxPoint r n₁ n₂ n₃ s p := by
  unfold isMaxPoint at hmax ⊢
  have hle : r p.1 p.2.1 p.2.2 ≤ windowMax r n₁ n₂ n₃ s p :=
    windowMax_ge r (self_mem_windowPts hs h1 h2 h3)
  have hge : windowMax r n₁ n₂ n₃ s p ≤ windowMax r n₁ n₂ n₃ s' p :=
    windowMax_mono r hs h p
  exact le_antisymm hle (hmax ▸ hge)

lemma suppress_ne_zero_elim {r : Roi} {n₁ n₂ n₃ s i j k : ℕ}
    (h : suppress r n₁ n₂ n₃ s i j k ≠ 0) :
    isMaxPoint r n₁ n₂ n₃ s (i, j, k) ∧
    suppress r n₁ n₂ n₃ s i j k = r i j k ∧ r i j k ≠ 0 := by
  unfold suppress at h ⊢
  by_cases hm : isMaxPoint r n₁ n₂ n₃ s (i, j, k)
  · rw [if_pos hm] at h ⊢
    exact ⟨hm, rfl, h⟩
  · rw [if_neg hm] at h
    exact absurd rfl h

lemma mem_allVoxels {n₁ n₂ n₃ : ℕ} {p : ℕ × ℕ × ℕ} :
    p ∈ allVoxels n₁ n₂ n₃ ↔ p.1 < n₁ ∧ p.2.1 < n₂ ∧ p.2.2 < n₃ := by
  obtain ⟨i, j, k⟩ := p
  simp only [allVoxels, List.mem_flatMap, List.mem_map, List.mem_range]
  constructor
  · rintro ⟨a, ha, b, hb, c, hc, he⟩
    rw [Prod.mk.injEq, Prod.mk.injEq] at he
    obtain ⟨rfl, rfl, rfl⟩ := he
    exact ⟨ha, hb, hc⟩
  · rintro ⟨hi, hj, hk⟩
    exact ⟨i, hi, j, hj, k, hk, rfl⟩

lemma length_filter_mono {α : Type} (l : List α) (p q : α → Bool)
    (h : ∀ a ∈ l, p a = true → q a = true) :
    (l.filter p).length ≤ (l.filter q).length := by
  induction l with
  | nil => simp
  | cons a t ih =>
    have ht : ∀ x ∈ t, p x = true → q x = true := fun x hx =>
      h x (List.mem_cons_of_mem a hx)
    by_cases hp : p a = true
    · rw [List.filter_cons_of_pos hp, List.filter_cons_of_pos
        (h a (List.mem_cons_self a t) hp)]
      simpa using ih ht
    · rw [List.filter_cons_of_neg (by simpa using hp)]
      cases hq : q a with
      | false =>
        rw [List.filter_cons_of_neg (by simp [hq])]
        exact ih ht
      | true =>
        rw [List.filter_cons_of_pos hq]
        exact le_trans (ih ht) (by simp)

lemma window_le_of_surviving {r : Roi} {n₁ n₂ n₃ s : ℕ} {p q : ℕ × ℕ × ℕ}
    (hp : suppress r n₁ n₂ n₃ s p.1 p.2.1 p.2.2 ≠ 0)
    (hq : q ∈ windowPts n₁ n₂ n₃ s p) :
    r q.1 q.2.1 q.2.2 ≤ r p.1 p.2.1 p.2.2 := by
  obtain ⟨hm, -, -⟩ := suppress_ne_zero_elim hp
  have hle : r q.1 q.2.1 q.2.2 ≤ windowMax r n₁ n₂ n₃ s p := windowMax_ge r hq
  unfold isMaxPoint at hm
  exact le_trans hle (le_of_eq hm.symm)

/-- C6: peak-suppression soundness.  If a voxel `p` survives suppression
(non-zero in the peak-suppressed sub-volume), then no voxel of the
sub-volume within the separation window centred on `p` (edge-replication
boundary handling) has strictly greater intensity: every windowed voxel's
intensity is at most `p`'s. -/
theorem c6_suppression_sound (r : Roi) (n₁ n₂ n₃ s : ℕ) (p q : ℕ × ℕ × ℕ)
    (hp : suppress r n₁ n₂ n₃ s p.1 p.2.1 p.2.2 ≠ 0)
    (hq : q ∈ windowPts n₁ n₂ n₃ s p) :
    r q.1 q.2.1 q.2.2 ≤ r p.1 p.2.1 p.2.2 :=
  window_le_of_surviving hp hq

set_option maxRecDepth 40000 in
/-- Witness for C6 on a concrete `1×1×2` sub-volume with intensities 9, 4:
the surviving voxel `(0,0,0)` dominates the windowed voxel `(0,0,1)`. -/
theorem c6_suppression_sound_witness :
    (fun _ _ k => if k = 0 then (9:ℚ) else 4) 0 0 1 ≤
    (fun _ _ k => if k = 0 then (9:ℚ) else 4) 0 0 0 :=
  c6_suppression_sound (fun _ _ k => if k = 0 then (9:ℚ) else 4) 1 1 2 3
    (0, 0, 0) (0, 0, 1) (by decide) (by decide)

set_option maxRecDepth 40000 in
/-- C3 counterexample: on a `1×1×2` plateau of two equal intensities `5`
with window size 3, both voxels lie in each other's separation window yet
both survive as Peaks with equal intensity — the survivors are not strict
local maxima, and two equal-valued voxels of one window do both survive. -/
theorem c3_strictness_counterexample :
    (((0, 0, 0), (5:ℚ)) ∈ peaks c3Roi 1 1 2 3) ∧
    (((0, 0, 1), (5:ℚ)) ∈ peaks c3Roi 1 1 2 3) ∧
    (((0, 0, 1) : ℕ × ℕ × ℕ) ∈ windowPts 1 1 2 3 (0, 0, 0)) ∧
    (((0, 0, 1) : ℕ × ℕ × ℕ) ≠ (0, 0, 0)) ∧
    c3Roi 0 0 1 = c3Roi 0 0 0 := by
  refine ⟨by decide, by decide, by decide, by decide, by decide⟩

/-- C3 amended: every Peak of a blob's sub-volume is a *non-strict* local
maximum: its recorded intensity is the sub-volume's value at its position,
it is non-zero, and no voxel within the separation window centred on it has
strictly greater intensity (equal-valued voxels in one window may all
survive). -/
theorem c3_peaks_are_nonstrict_maxima (r : Roi) (n₁ n₂ n₃ s : ℕ)
    (pv : (ℕ × ℕ × ℕ) × ℚ) (h : pv ∈ peaks r n₁ n₂ n₃ s) :
    pv.2 = r pv.1.1 pv.1.2.1 pv.1.2.2 ∧ pv.2 ≠ 0 ∧
    ∀ q ∈ windowPts n₁ n₂ n₃ s pv.1, r q.1 q.2.1 q.2.2 ≤ pv.2 := by
  unfold peaks at h
  rcases List.mem_map.mp h with ⟨p, hpmem, rfl⟩
  rcases List.mem_filter.mp hpmem with ⟨-, hpred⟩
  have hne : suppress r n₁ n₂ n₃ s p.1 p.2.1 p.2.2 ≠ 0 := by
    simpa using hpred
  obtain ⟨hm, heq, hrne⟩ := suppress_ne_zero_elim hne
  refine ⟨heq, hne, ?_⟩
  intro q hq
  rw [heq]
  exact window_le_of_surviving hne hq

set_option maxRecDepth 40000 in
/-- Witness for the amended C3: the Peak `((0,0,0), 5)` of the plateau
sub-volume is a non-strict local maximum. -/
theorem c3_peaks_are_nonstrict_maxima_witness :
    (5:ℚ) = c3Roi 0 0 0 ∧ (5:ℚ) ≠ 0 ∧
    ∀ q ∈ windowPts 1 1 2 3 (0, 0, 0), c3Roi q.1 q.2.1 q.2.2 ≤ 5 :=
  c3_peaks_are_nonstrict_maxima c3Roi 1 1 2 3 ((0, 0, 0), 5) (by decide)

set_option maxRecDepth 40000 in
/-- C1: the failing input.  On the `1×1×2` sub-volume with intensities
9 and 4, separation window 3, `int_scale_factor = 1` and `threshold = 10`,
the voxel `(0,0,0)` of intensity `9 < 1 * 10` survives suppression and is
reported as a Peak: line 225 computes the sub-threshold exclusion mask but
discards it, so sub-threshold local maxima are *not* removed from the
maxima mask, contradicting the documented intent (spec section 9 flags this
defect). -/
theorem c1_subthreshold_peak_survives :
    suppress c1Roi 1 1 2 3 0 0 0 = 9 ∧
    (((0, 0, 0), (9:ℚ)) ∈ peaks c1Roi 1 1 2 3) ∧
    c1Roi 0 0 0 < 1 * 10 := by
  refine ⟨by decide, by decide, ?_⟩
  norm_num [c1Roi]

set_option maxRecDepth 40000 in
/-- C10: stage 5 mutates the shared normalized volume in place.  The loop
threads `ge_data` through the per-blob suppressions (each `roi` is a numpy
view); inside a blob's bounding box every non-maximal voxel is zeroed and
every other voxel is untouched; a later blob whose box overlaps an earlier
one reads the already-suppressed values (shown on a concrete overlapping
pair, where the second blob's sub-volume differs from what it would read
from the original volume); and the volume is not left unchanged. -/
theorem c10_in_place_suppression :
    (∀ s v b bs, find_local_maxima s v (b :: bs) =
      find_local_maxima s (suppressBlob s v b) bs) ∧
    (∀ s v b i j k, inSlices b i j k →
      ¬ isMaxPoint (roiOf v b) (blobDims b).1 (blobDims b).2.1 (blobDims b).2.2
          s (i - b.slice_x.1, j - b.slice_y.1, k - b.slice_z.1) →
      suppressBlob s v b i j k = 0) ∧
    (∀ s v b i j k, inSlices b i j k →
      isMaxPoint (roiOf v b) (blobDims b).1 (blobDims b).2.1 (blobDims b).2.2
          s (i - b.slice_x.1, j - b.slice_y.1, k - b.slice_z.1) →
      suppressBlob s v b i j k = v i j k) ∧
    (∀ s v b i j k, ¬ inSlices b i j k → suppressBlob s v b i j k = v i j k) ∧
    (roiOf (suppressBlob 3 c10Vol c10B1) c10B2 0 0 0 ≠ roiOf c10Vol c10B2 0 0 0) ∧
    (find_local_maxima 3 c10Vol [c10B1, c10B2] 0 0 1 ≠ c10Vol 0 0 1) := by
  refine ⟨fun s v b bs => rfl, ?_, ?_, ?_, by decide, by decide⟩
  · intro s v b i j k hin hnm
    unfold suppressBlob suppress
    rw [if_pos hin, if_neg hnm]
  · intro s v b i j k hin hm
    unfold suppressBlob suppress
    rw [if_pos hin, if_pos hm]
    unfold roiOf
    have e1 : b.slice_x.1 + (i - b.slice_x.1) = i := by
      have := hin.1.1; omega
    have e2 : b.slice_y.1 + (j - b.slice_y.1) = j := by
      have := hin.2.1.1; omega
    have e3 : b.slice_z.1 + (k - b.slice_z.1) = k := by
      have := hin.2.2.1; omega
    rw [e1, e2, e3]
  · intro s v b i j k hout
    unfold suppressBlob
    rw [if_neg hout]

set_option maxRecDepth 40000 in
/-- Witness for C10: the non-maximal voxel `(0,0,1)` inside the first
blob's box is zeroed by that blob's suppression. -/
theorem c10_in_place_suppression_witness :
    suppressBlob 3 c10Vol c10B1 0 0 1 = 0 :=
  c10_in_place_suppression.2.1 3 c10Vol c10B1 0 0 1 (by decide) (by decide)

lemma mem_reachSet {M : Vox d₁ d₂ d₃ → Bool} {p q : Vox d₁ d₂ d₃} :
    q ∈ reachSet M p ↔ (maskGraph M).Reachable p q := by
  simp [reachSet]

lemma reachSet_eq_of_reachable {M : Vox d₁ d₂ d₃ → Bool}
    {p q : Vox d₁ d₂ d₃} (h : (maskGraph M).Reachable p q) :
    reachSet M p = reachSet M q := by
  ext r
  simp only [mem_reachSet]
  exact ⟨fun hr => h.symm.trans hr, fun hr => h.trans hr⟩

lemma rep_eq_of_reachable {M : Vox d₁ d₂ d₃ → Bool} {p q : Vox d₁ d₂ d₃}
    (h : (maskGraph M).Reachable p q) : rep M p = rep M q := by
  unfold rep
  simp only [reachSet_eq_of_reachable h]

lemma exists_rep (M : Vox d₁ d₂ d₃ → Bool) (p : Vox d₁ d₂ d₃) :
    ∃ q, (maskGraph M).Reachable p q ∧ rasterIdx q = rep M p := by
  have hne : ((reachSet M p).image rasterIdx).Nonempty :=
    ⟨rasterIdx p, Finset.mem_image_of_mem _
      (mem_reachSet.mpr (SimpleGraph.Reachable.refl p))⟩
  obtain ⟨q, hq, he⟩ :=
    Finset.mem_image.mp (Finset.min'_mem ((reachSet M p).image rasterIdx) hne)
  exact ⟨q, mem_reachSet.mp hq, he⟩

lemma rasterIdx_lt (p : Vox d₁ d₂ d₃) : rasterIdx p < d₁ * d₂ * d₃ := by
  obtain ⟨⟨x, hx⟩, ⟨y, hy⟩, ⟨z, hz⟩⟩ := p
  show z + d₃ * (y + d₂ * x) < d₁ * d₂ * d₃
  have h1 : y + d₂ * x + 1 ≤ d₂ * d₁ := by
    calc y + d₂ * x + 1 ≤ d₂ * x + d₂ := by omega
    _ = d₂ * (x + 1) := by ring
    _ ≤ d₂ * d₁ := Nat.mul_le_mul_left _ hx
  calc z + d₃ * (y + d₂ * x) < d₃ * (y + d₂ * x) + d₃ := by omega
  _ = d₃ * (y + d₂ * x + 1) := by ring
  _ ≤ d₃ * (d₂ * d₁) := Nat.mul_le_mul_left _ h1
  _ = d₁ * d₂ * d₃ := by ring

lemma encode_inj {n a a' b b' : ℕ} (ha : a < n) (ha' : a' < n)
    (h : a + n * b = a' + n * b') : a = a' ∧ b = b' := by
  have h1 : (a + n * b) % n = a := by
    rw [Nat.add_mul_mod_self_left, Nat.mod_eq_of_lt ha]
  have h2 : (a' + n * b') % n = a' := by
    rw [Nat.add_mul_mod_self_left, Nat.mod_eq_of_lt ha']
  have haa : a = a' := by rw [← h1, h, h2]
  refine ⟨haa, ?_⟩
  subst haa
  have hc := Nat.add_left_cancel h
  exact Nat.eq_of_mul_eq_mul_left (by omega) hc

lemma rasterIdx_inj {p q : Vox d₁ d₂ d₃} (h : rasterIdx p = rasterIdx q) :
    p = q := by
  obtain ⟨⟨x, hx⟩, ⟨y, hy⟩, ⟨z, hz⟩⟩ := p
  obtain ⟨⟨x', hx'⟩, ⟨y', hy'⟩, ⟨z', hz'⟩⟩ := q
  have h' : z + d₃ * (y + d₂ * x) = z' + d₃ * (y' + d₂ * x') := h
  obtain ⟨hzz, h2⟩ := encode_inj hz hz' h'
  obtain ⟨hyy, hxx⟩ := encode_inj hy hy' h2
  subst hzz
  subst hyy
  subst hxx
  rfl

lemma rep_eq_iff {M : Vox d₁ d₂ d₃ → Bool} {p q : Vox d₁ d₂ d₃} :
    rep M p = rep M q ↔ (maskGraph M).Reachable p q := by
  constructor
  · intro h
    obtain ⟨a, hpa, hea⟩ := exists_rep M p
    obtain ⟨b, hqb, heb⟩ := exists_rep M q
    have hab : a = b := rasterIdx_inj (by rw [hea, heb, h])
    refine hpa.trans ?_
    rw [hab]
    exact hqb.symm
  · exact rep_eq_of_reachable

lemma mem_fgFinset {M : Vox d₁ d₂ d₃ → Bool} {p : Vox d₁ d₂ d₃} :
    p ∈ fgFinset M ↔ M p = true := by
  simp [fgFinset]

lemma mem_repsList {M : Vox d₁ d₂ d₃ → Bool} {r : ℕ} :
    r ∈ repsList M ↔ r ∈ (fgFinset M).image (rep M) := by
  unfold repsList
  rw [List.mem_filter]
  simp only [List.mem_range, decide_eq_true_eq]
  constructor
  · exact fun h => h.2
  · intro h
    refine ⟨?_, h⟩
    obtain ⟨p, hp, he⟩ := Finset.mem_image.mp h
    obtain ⟨q, hq, heq⟩ := exists_rep M p
    rw [← he, ← heq]
    exact rasterIdx_lt q

lemma repsList_nodup (M : Vox d₁ d₂ d₃ → Bool) : (repsList M).Nodup :=
  List.Nodup.filter _ (List.nodup_range _)

lemma rep_mem_repsList {M : Vox d₁ d₂ d₃ → Bool} {p : Vox d₁ d₂ d₃}
    (hp : M p = true) : rep M p ∈ repsList M :=
  mem_repsList.mpr (Finset.mem_image_of_mem _ (mem_fgFinset.mpr hp))

lemma indexOf_inj {α : Type} [DecidableEq α] {l : List α} {a b : α}
    (ha : a ∈ l) (hb : b ∈ l) (h : l.indexOf a = l.indexOf b) : a = b := by
  have h1 := List.getElem_indexOf (List.indexOf_lt_length.mpr ha)
  have h2 := List.getElem_indexOf (List.indexOf_lt_length.mpr hb)
  simp only [h] at h1
  exact h1.symm.trans h2

lemma labelOf_pos {M : Vox d₁ d₂ d₃ → Bool} {p : Vox d₁ d₂ d₃}
    (hp : M p = true) : labelOf M p ≠ 0 := by
  simp [labelOf, hp]

lemma labelOf_bg {M : Vox d₁ d₂ d₃ → Bool} {p : Vox d₁ d₂ d₃}
    (hp : M p = false) : labelOf M p = 0 := by
  simp [labelOf, hp]

lemma mask_of_labelOf_ne_zero {M : Vox d₁ d₂ d₃ → Bool} {p : Vox d₁ d₂ d₃}
    (h : labelOf M p ≠ 0) : M p = true := by
  by_contra hM
  exact h (labelOf_bg (by simpa using hM))

lemma labelOf_le (M : Vox d₁ d₂ d₃ → Bool) (p : Vox d₁ d₂ d₃) :
    labelOf M p ≤ numberOfLabels M := by
  unfold numberOfLabels
  cases hM : M p with
  | false => simp [labelOf, hM]
  | true =>
    simp only [labelOf, hM, if_pos]
    have := List.indexOf_lt_length.mpr (rep_mem_repsList hM)
    omega

lemma labelOf_attained {M : Vox d₁ d₂ d₃ → Bool} {i : ℕ}
    (hi : i < numberOfLabels M) : ∃ p, M p = true ∧ labelOf M p = i + 1 := by
  unfold numberOfLabels at hi
  have hr : (repsList M)[i] ∈ repsList M := List.getElem_mem hi
  obtain ⟨p, hp, he⟩ := Finset.mem_image.mp (mem_repsList.mp hr)
  refine ⟨p, mem_fgFinset.mp hp, ?_⟩
  unfold labelOf
  rw [if_pos (mem_fgFinset.mp hp), he, List.indexOf_getElem (repsList_nodup M) i hi]

lemma numberOfLabels_empty {M : Vox d₁ d₂ d₃ → Bool} (h : ∀ p, M p = false) :
    numberOfLabels M = 0 ∧ ∀ p, labelOf M p = 0 := by
  constructor
  · unfold numberOfLabels repsList
    have hfg : fgFinset M = ∅ := by
      ext p
      simp [fgFinset, h p]
    rw [hfg]
    simp
  · exact fun p => labelOf_bg (h p)

lemma reachable_iff_fgConnected {M : Vox d₁ d₂ d₃ → Bool}
    {p q : Vox d₁ d₂ d₃} :
    (maskGraph M).Reachable p q ↔ fgConnected M p q :=
  SimpleGraph.reachable_iff_reflTransGen p q

lemma labelOf_eq_iff {M : Vox d₁ d₂ d₃ → Bool} {p q : Vox d₁ d₂ d₃}
    (hp : M p = true) (hq : M q = true) :
    labelOf M p = labelOf M q ↔ (maskGraph M).Reachable p q := by
  unfold labelOf
  rw [if_pos hp, if_pos hq]
  constructor
  · intro h
    have h' : (repsList M).indexOf (rep M p) = (repsList M).indexOf (rep M q) := by
      omega
    exact rep_eq_iff.mp (indexOf_inj (rep_mem_repsList hp) (rep_mem_repsList hq) h')
  · intro h
    rw [rep_eq_of_reachable h]

/-- C4: the labeler.  The foreground mask holds exactly where the smoothed
volume strictly exceeds the threshold; two foreground voxels carry equal
labels iff a face-adjacent (6-connectivity) path of foreground voxels
connects them; foreground labels are never `0`; and an all-false mask
yields `number_of_labels = 0` with an all-zero LabelVolume rather than an
error. -/
theorem c4_label_connectivity (sm : SVol d₁ d₂ d₃) (thr : ℚ) :
    (∀ p, maskOf sm thr p = true ↔ thr < sm p) ∧
    (∀ p q, maskOf sm thr p = true → maskOf sm thr q = true →
      (labelOf (maskOf sm thr) p = labelOf (maskOf sm thr) q ↔
        fgConnected (maskOf sm thr) p q)) ∧
    (∀ p, maskOf sm thr p = true → labelOf (maskOf sm thr) p ≠ 0) ∧
    ((∀ p, maskOf sm thr p = false) →
      numberOfLabels (maskOf sm thr) = 0 ∧
      ∀ p, labelOf (maskOf sm thr) p = 0) := by
  refine ⟨?_, ?_, ?_, numberOfLabels_empty⟩
  · intro p
    simp [maskOf]
  · intro p q hp hq
    exact (labelOf_eq_iff hp hq).trans reachable_iff_fgConnected
  · intro p hp
    exact labelOf_pos hp

/-- Witness for C4 on a concrete `1×1×2` smoothed volume with one voxel
above threshold: that voxel's label is nonzero. -/
theorem c4_label_connectivity_witness :
    labelOf (maskOf c4Sm 1) ((0 : Fin 1), (0 : Fin 1), (0 : Fin 2)) ≠ 0 :=
  (c4_label_connectivity c4Sm 1).2.2.1 _ (by decide)

lemma mem_blobLabels {M : Vox d₁ d₂ d₃ → Bool} {l : ℕ} :
    l ∈ blobLabels M ↔ l ∈ Finset.univ.image (labelOf M) := by
  unfold blobLabels
  rw [List.mem_filter]
  simp only [List.mem_range, decide_eq_true_eq]
  constructor
  · exact fun h => h.2
  · intro h
    refine ⟨?_, h⟩
    obtain ⟨p, -, he⟩ := Finset.mem_image.mp h
    have := labelOf_le M p
    omega

lemma blobLabels_eq_range {M : Vox d₁ d₂ d₃ → Bool}
    (hbg : ∃ p, M p = false) :
    blobLabels M = List.range (numberOfLabels M + 1) := by
  unfold blobLabels
  rw [List.filter_eq_self]
  intro l hl
  rw [List.mem_range] at hl
  rw [decide_eq_true_eq]
  rcases Nat.eq_zero_or_pos l with rfl | hpos
  · obtain ⟨p, hp⟩ := hbg
    exact Finset.mem_image.mpr ⟨p, Finset.mem_univ p, labelOf_bg hp⟩
  · obtain ⟨p, -, he⟩ := labelOf_attained (M := M) (i := l - 1) (by omega)
    refine Finset.mem_image.mpr ⟨p, Finset.mem_univ p, ?_⟩
    omega

lemma blobSize_eq_card {M : Vox d₁ d₂ d₃ → Bool} {l : ℕ} (hl : l ≠ 0) :
    blobSize M l = (labelVoxels M l).card := by
  unfold blobSize
  congr 1
  apply Finset.filter_true_of_mem
  intro p hp
  rw [labelVoxels, Finset.mem_filter] at hp
  exact mask_of_labelOf_ne_zero (by rw [hp.2]; exact hl)

lemma zip_range_map {k : ℕ} (f : ℕ → ℕ) :
    List.zip (List.range k) ((List.range k).map f) =
      (List.range k).map fun i => (i, f i) := by
  have h1 : List.zip ((List.range k).map id) ((List.range k).map f) =
      (List.range k).map fun a => (id a, f a) := List.zip_map' id f (List.range k)
  rw [List.map_id] at h1
  rw [h1]
  rfl

lemma findObject_eq_some {M : Vox d₁ d₂ d₃ → Bool} {l : ℕ}
    {bb : (ℕ × ℕ) × (ℕ × ℕ) × (ℕ × ℕ)} (h : findObject M l = some bb) :
    (∀ p ∈ labelVoxels M l,
      bb.1.1 ≤ p.1.val ∧ p.1.val < bb.1.2 ∧
      bb.2.1.1 ≤ p.2.1.val ∧ p.2.1.val < bb.2.1.2 ∧
      bb.2.2.1 ≤ p.2.2.val ∧ p.2.2.val < bb.2.2.2) ∧
    (∃ p ∈ labelVoxels M l, p.1.val = bb.1.1) ∧
    (∃ p ∈ labelVoxels M l, p.1.val + 1 = bb.1.2) ∧
    (∃ p ∈ labelVoxels M l, p.2.1.val = bb.2.1.1) ∧
    (∃ p ∈ labelVoxels M l, p.2.1.val + 1 = bb.2.1.2) ∧
    (∃ p ∈ labelVoxels M l, p.2.2.val = bb.2.2.1) ∧
    (∃ p ∈ labelVoxels M l, p.2.2.val + 1 = bb.2.2.2) := by
  obtain ⟨⟨bx1, bx2⟩, ⟨by1, by2⟩, bz1, bz2⟩ := bb
  unfold findObject at h
  by_cases hne : (labelVoxels M l).Nonempty
  case neg =>
    rw [dif_neg hne] at h
    exact absurd h (by simp)
  rw [dif_pos hne] at h
  simp only [Option.some.injEq, Prod.mk.injEq] at h
  obtain ⟨⟨hbx1, hbx2⟩, ⟨hby1, hby2⟩, hbz1, hbz2⟩ := h
  subst hbx1
  subst hbx2
  subst hby1
  subst hby2
  subst hbz1
  subst hbz2
  dsimp only
  refine ⟨?_, ?_, ?_, ?_, ?_, ?_, ?_⟩
  · intro p hp
    refine ⟨Finset.min'_le _ _ (Finset.mem_image_of_mem _ hp), ?_,
            Finset.min'_le _ _ (Finset.mem_image_of_mem _ hp), ?_,
            Finset.min'_le _ _ (Finset.mem_image_of_mem _ hp), ?_⟩
    · have := Finset.le_max' ((labelVoxels M l).image fun p => p.1.val) _
        (Finset.mem_image_of_mem _ hp)
      omega
    · have := Finset.le_max' ((labelVoxels M l).image fun p => p.2.1.val) _
        (Finset.mem_image_of_mem _ hp)
      omega
    · have := Finset.le_max' ((labelVoxels M l).image fun p => p.2.2.val) _
        (Finset.mem_image_of_mem _ hp)
      omega
  · obtain ⟨p, hp, he⟩ := Finset.mem_image.mp
      (Finset.min'_mem ((labelVoxels M l).image fun p => p.1.val) (hne.image _))
    exact ⟨p, hp, he⟩
  · obtain ⟨p, hp, he⟩ := Finset.mem_image.mp
      (Finset.max'_mem ((labelVoxels M l).image fun p => p.1.val) (hne.image _))
    exact ⟨p, hp, by rw [he]⟩
  · obtain ⟨p, hp, he⟩ := Finset.mem_image.mp
      (Finset.min'_mem ((labelVoxels M l).image fun p => p.2.1.val) (hne.image _))
    exact ⟨p, hp, he⟩
  · obtain ⟨p, hp, he⟩ := Finset.mem_image.mp
      (Finset.max'_mem ((labelVoxels M l).image fun p => p.2.1.val) (hne.image _))
    exact ⟨p, hp, by rw [he]⟩
  · obtain ⟨p, hp, he⟩ := Finset.mem_image.mp
      (Finset.min'_mem ((labelVoxels M l).image fun p => p.2.2.val) (hne.image _))
    exact ⟨p, hp, he⟩
  · obtain ⟨p, hp, he⟩ := Finset.mem_image.mp
      (Finset.max'_mem ((labelVoxels M l).image fun p => p.2.2.val) (hne.image _))
    exact ⟨p, hp, by rw [he]⟩

/-- C5 amended: *provided at least one voxel is background* (so that
`np.unique`'s label list aligns with the size list indexed by
`range(number_of_labels + 1)`), every Blob produced by `find_blobs`
satisfies all the stated invariants.  Without a background voxel the zip
of lines 167-172 pairs each label with the size of the *previous* label,
which the counterexample exploits. -/
theorem c5_blob_invariants (sm : SVol d₁ d₂ d₃) (thr : ℚ) (min_size : ℕ)
    (hbg : ∃ p, maskOf sm thr p = false) :
    ∀ b ∈ find_blobs sm thr min_size,
      blobInvariants (maskOf sm thr) min_size b := by
  intro b hb
  unfold find_blobs findBlobsMask at hb
  rw [blobLabels_eq_range hbg, zip_range_map] at hb
  obtain ⟨ls, hls, ho⟩ := List.mem_filterMap.mp hb
  obtain ⟨l, hl, rfl⟩ := List.mem_map.mp hls
  rw [List.mem_range] at hl
  simp only [blobOfPair] at ho
  by_cases h0 : l = 0
  · rw [if_pos h0] at ho
    exact absurd ho (by simp)
  rw [if_neg h0] at ho
  by_cases hsz : blobSize (maskOf sm thr) l < min_size
  · rw [if_pos hsz] at ho
    exact absurd ho (by simp)
  rw [if_neg hsz] at ho
  cases hfo : findObject (maskOf sm thr) l with
  | none =>
    simp only [hfo] at ho
    exact absurd ho (by simp)
  | some bb =>
    obtain ⟨sx, sy, sz⟩ := bb
    simp only [hfo] at ho
    by_cases hext :
        min (sx.2 - sx.1) (min (sy.2 - sy.1) (sz.2 - sz.1)) ^ 3 < min_size
    · rw [if_pos hext] at ho
      exact absurd ho (by simp)
    rw [if_neg hext] at ho
    injection ho with ho
    subst ho
    obtain ⟨hin, hx1, hx2, hy1, hy2, hz1, hz2⟩ := findObject_eq_some hfo
    have hlpos : l ≠ 0 := h0
    have hlt : l - 1 < numberOfLabels (maskOf sm thr) := by omega
    obtain ⟨pw, -, hpw⟩ := labelOf_attained hlt
    have hpwl : labelOf (maskOf sm thr) pw = l := by omega
    simp only [blobInvariants]
    exact ⟨by omega, by omega, hlpos, ⟨pw, hpwl⟩, blobSize_eq_card hlpos, hin,
           hx1, hx2, hy1, hy2, hz1, hz2⟩

set_option maxRecDepth 200000 in
/-- Witness for the amended C5: on a `1×1×2` volume with one foreground and
one background voxel, the single produced blob (label 1, one voxel,
bounding box `[0,1)³`) satisfies the invariants. -/
theorem c5_blob_invariants_witness :
    blobInvariants
      (maskOf (fun p => if p.2.2.val = 0 then (5:ℚ) else 0 : SVol 1 1 2) 1)
      1 ⟨(0, 1), (0, 1), (0, 1), 1, 1⟩ :=
  c5_blob_invariants _ 1 1 ⟨((0 : Fin 1), (0 : Fin 1), (1 : Fin 2)), by decide⟩
    ⟨(0, 1), (0, 1), (0, 1), 1, 1⟩ (by decide)

set_option maxRecDepth 200000 in
/-- C5 counterexample: on a `1×1×1` volume whose only voxel is foreground
(mask all-true, so label `0` is not attained) with `min_blob_size = 0`,
`np.unique` returns `[1]` while the size list is `[size(0), size(1)]`, so
the zip pairs label `1` with `size(0) = 0`: the produced Blob stores
`blob_size = 0`, but one voxel carries label `1` — the stored size is not
the count of voxels with that label. -/
theorem c5_zip_misalignment_counterexample :
    find_blobs c5Sm 1 0 = [⟨(0, 1), (0, 1), (0, 1), 1, 0⟩] ∧
    (labelVoxels (maskOf c5Sm 1) 1).card = 1 ∧ (0 : ℕ) ≠ 1 := by
  refine ⟨by decide, by decide, by decide⟩

lemma blobOfPair_mono {M : Vox d₁ d₂ d₃ → Bool} {m m' : ℕ} (hmm : m ≤ m')
    (ls : ℕ × ℕ) (h : (blobOfPair M m' ls).isSome = true) :
    (blobOfPair M m ls).isSome = true := by
  simp only [blobOfPair] at h ⊢
  by_cases h0 : ls.1 = 0
  · rw [if_pos h0] at h
    simp at h
  rw [if_neg h0] at h ⊢
  by_cases hsz' : ls.2 < m'
  · rw [if_pos hsz'] at h
    simp at h
  rw [if_neg hsz'] at h
  rw [if_neg (by omega : ¬ ls.2 < m)]
  cases hfo : findObject M ls.1 with
  | none =>
    simp only [hfo] at h
    simp at h
  | some bb =>
    obtain ⟨sx, sy, sz⟩ := bb
    simp only [hfo] at h ⊢
    by_cases hext' : min (sx.2 - sx.1) (min (sy.2 - sy.1) (sz.2 - sz.1)) ^ 3 < m'
    · rw [if_pos hext'] at h
      simp at h
    rw [if_neg (by omega : ¬ min (sx.2 - sx.1) (min (sy.2 - sy.1) (sz.2 - sz.1)) ^ 3 < m)]
    simp

lemma length_filterMap_mono {α β : Type} (l : List α) (f g : α → Option β)
    (h : ∀ a ∈ l, (g a).isSome = true → (f a).isSome = true) :
    (l.filterMap g).length ≤ (l.filterMap f).length := by
  induction l with
  | nil => simp
  | cons a t ih =>
    have ht : ∀ x ∈ t, (g x).isSome = true → (f x).isSome = true :=
      fun x hx => h x (List.mem_cons_of_mem a hx)
    cases hg : g a with
    | none =>
      cases hf : f a with
      | none =>
        simp only [List.filterMap_cons, hg, hf]
        exact ih ht
      | some c =>
        simp only [List.filterMap_cons, hg, hf]
        exact le_trans (ih ht) (by simp)
    | some b =>
      have hfs := h a (List.mem_cons_self a t) (by simp [hg])
      cases hf : f a with
      | none =>
        rw [hf] at hfs
        simp at hfs
      | some c =>
        simp only [List.filterMap_cons, hg, hf, List.length_cons]
        exact Nat.succ_le_succ (ih ht)

/-- C8: filter monotonicity.  For a fixed smoothed volume and threshold
(hence a fixed LabelVolume), raising `min_blob_size` never increases the
number of surviving blobs; for a fixed sub-volume, raising
`min_peak_separation` (within the meaningful sizes `≥ 1`) never increases
the number of surviving peaks. -/
theorem c8_filter_monotonicity :
    (∀ (e₁ e₂ e₃ : ℕ) (sm : SVol e₁ e₂ e₃) (thr : ℚ) (m m' : ℕ), m ≤ m' →
      (find_blobs sm thr m').length ≤ (find_blobs sm thr m).length) ∧
    (∀ (r : Roi) (n₁ n₂ n₃ s s' : ℕ), 1 ≤ s → s ≤ s' →
      (peaks r n₁ n₂ n₃ s').length ≤ (peaks r n₁ n₂ n₃ s).length) := by
  constructor
  · intro e₁ e₂ e₃ sm thr m m' hmm'
    unfold find_blobs findBlobsMask
    exact length_filterMap_mono _ _ _ (fun ls _ => blobOfPair_mono hmm' ls)
  · intro r n₁ n₂ n₃ s s' hs hss'
    unfold peaks
    rw [List.length_map, List.length_map]
    apply length_filter_mono
    intro p hp hpred
    simp only [decide_eq_true_eq] at hpred ⊢
    have hb := mem_allVoxels.mp hp
    obtain ⟨hm', heq, hrne⟩ := suppress_ne_zero_elim hpred
    have hm := isMaxPoint_mono r hs hss' hb.1 hb.2.1 hb.2.2 hm'
    unfold suppress
    rw [if_pos hm]
    exact hrne

/-- Witness for C8 at concrete parameters. -/
theorem c8_filter_monotonicity_witness :
    (find_blobs (fun _ => (0:ℚ) : SVol 1 1 1) 1 2).length ≤
      (find_blobs (fun _ => (0:ℚ) : SVol 1 1 1) 1 1).length ∧
    (peaks (fun _ _ _ => (0:ℚ)) 1 1 1 4).length ≤
      (peaks (fun _ _ _ => (0:ℚ)) 1 1 1 3).length :=
  ⟨c8_filter_monotonicity.1 1 1 1 _ 1 1 2 (by decide),
   c8_filter_monotonicity.2 _ 1 1 1 3 4 (by decide) (by decide)⟩

end GEPre
